import Mathlib

/-!
Verification of the StudyScribe retrieval-augmented QA core against its
specification.  The Python sources under `src/studyscribe/` are shallowly
embedded: dictionaries become structures, floats become rationals, the
character counts and scores (Python ints) become naturals, and the mutable
accumulation loops become structural recursions that thread the same state
the Python code threads.
-/

namespace StudyScribe

/-! ## Chunker (src/studyscribe/services/retrieval.py, build_chunks)

A transcript segment is the dict `{segment_id, start, end, text, tags}` built
by `transcribe_audio` and consumed by `build_chunks`.  The Python key `end`
is a Lean keyword and is spelled `«end»`. -/

structure Seg where
  segment_id : Nat
  start : Rat
  «end» : Rat
  text : String
  tags : List String
deriving Repr, DecidableEq, Inhabited

/-- A chunk, the dict built by `flush` inside `build_chunks`:
`{id, text, start, end, segment_ids}`. -/
structure Chunk where
  id : Nat
  text : String
  start : Rat
  «end» : Rat
  segment_ids : List Nat
deriving Repr, DecidableEq, Inhabited

/-- Python's `str.strip()` on a character list: remove leading and trailing
whitespace. -/
def listStrip (cs : List Char) : List Char :=
  ((cs.dropWhile Char.isWhitespace).reverse.dropWhile Char.isWhitespace).reverse

/-- Python's `str.strip()`: remove leading and trailing whitespace. -/
def pyStrip (s : String) : String :=
  String.mk (listStrip s.data)

/-- The chunk `flush` appends:
`id` is `len(chunks)` so far, `text` joins the stripped texts of the buffered
segments whose `text` is truthy (non-empty), `start`/`end` come from the
first/last buffered segment, `segment_ids` lists the buffered ids.
`flush` only builds a chunk from a non-empty buffer, where `headI`/`getLastD`
agree with Python's `buffer[0]`/`buffer[-1]`. -/
def mkChunk (count : Nat) (buffer : List Seg) : Chunk :=
  { id := count
    text := String.intercalate " " ((buffer.filter (fun s => s.text ≠ "")).map (fun s => pyStrip s.text))
    start := (buffer.headI).start
    «end» := (buffer.getLastD default).«end»
    segment_ids := buffer.map Seg.segment_id }

/-- The retained buffer after a flush: `buffer[-overlap:]` when `overlap > 0`,
else the empty buffer. -/
def retainAfterFlush (overlap : Nat) (buffer : List Seg) : List Seg :=
  if 0 < overlap then buffer.drop (buffer.length - overlap) else []

/-- The characters held in a buffer, `sum(len(seg.get("text", "")) for seg in buffer)`. -/
def bufferCharCount (buffer : List Seg) : Nat :=
  (buffer.map (fun s => s.text.length)).sum

/-- The `for segment in segments` loop of `build_chunks`, without the final
flush.  State: `count` chunks already emitted (so the next chunk's `id` is
`count`, matching `len(chunks)`), the `buffer`, and the running
`buffer_chars`.  Each segment is appended, its text length added, and when
`buffer_chars >= max_chars` the buffer is flushed (the buffer is non-empty at
that point, having just been appended to).  Returns the chunks emitted by the
loop together with the final buffer and final `buffer_chars`. -/
def buildChunksLoop (maxChars overlap : Nat) :
    Nat → List Seg → Nat → List Seg → List Chunk × List Seg × Nat
  | _count, buffer, bufferChars, [] => ([], buffer, bufferChars)
  | count, buffer, bufferChars, seg :: rest =>
      let buffer' := buffer ++ [seg]
      let bufferChars' := bufferChars + seg.text.length
      if maxChars ≤ bufferChars' then
        let retained := retainAfterFlush overlap buffer'
        let res := buildChunksLoop maxChars overlap (count + 1) retained
          (bufferCharCount retained) rest
        (mkChunk count buffer' :: res.1, res.2)
      else
        buildChunksLoop maxChars overlap count buffer' bufferChars' rest

/-- `build_chunks` starting from an arbitrary loop state: run the loop, then
perform the unconditional final `flush()`, which emits the remaining buffer
(if non-empty) as one last chunk whose `id` is the number of chunks already
emitted. -/
def buildChunksFrom (maxChars overlap count : Nat) (buffer : List Seg) (bufferChars : Nat)
    (segments : List Seg) : List Chunk :=
  let res := buildChunksLoop maxChars overlap count buffer bufferChars segments
  res.1 ++ (if res.2.1.isEmpty then [] else [mkChunk (count + res.1.length) res.2.1])

/-- `build_chunks(segments, max_chars, overlap)` (defaults in the source:
`max_chars=1200`, `overlap=1`): empty buffer, zero characters, no chunks. -/
def buildChunks (segments : List Seg) (maxChars overlap : Nat) : List Chunk :=
  buildChunksFrom maxChars overlap 0 [] 0 segments

/-- Concatenate per-chunk id lists, dropping from each chunk the `dropCnt`
leading ids retained from the chunk before it; the next chunk's retained
prefix has length `min overlap (length of this chunk)`. -/
def dedupFrom (overlap : Nat) : Nat → List (List Nat) → List Nat
  | _, [] => []
  | dropCnt, c :: cs => c.drop dropCnt ++ dedupFrom overlap (min overlap c.length) cs

/-- Concatenated `segment_ids` across chunks with the overlap duplicates
(the ids retained from the preceding chunk) ignored. -/
def dedupIds (overlap : Nat) (idLists : List (List Nat)) : List Nat :=
  dedupFrom overlap 0 idLists

/-! ### Chunker lemmas -/

theorem buildChunksFrom_nil (maxChars overlap count : Nat) (buffer : List Seg) (chars : Nat) :
    buildChunksFrom maxChars overlap count buffer chars []
      = if buffer.isEmpty then [] else [mkChunk count buffer] := by
  simp [buildChunksFrom, buildChunksLoop]

theorem buildChunksFrom_cons (maxChars overlap count : Nat) (buffer : List Seg) (chars : Nat)
    (seg : Seg) (rest : List Seg) :
    buildChunksFrom maxChars overlap count buffer chars (seg :: rest)
      = if maxChars ≤ chars + seg.text.length then
          mkChunk count (buffer ++ [seg]) ::
            buildChunksFrom maxChars overlap (count + 1)
              (retainAfterFlush overlap (buffer ++ [seg]))
              (bufferCharCount (retainAfterFlush overlap (buffer ++ [seg]))) rest
        else
          buildChunksFrom maxChars overlap count (buffer ++ [seg]) (chars + seg.text.length) rest := by
  by_cases h : maxChars ≤ chars + seg.text.length
  · simp only [buildChunksFrom, buildChunksLoop, if_pos h]
    simp [List.length_cons, Nat.add_comm, Nat.add_assoc, Nat.add_left_comm]
  · simp only [buildChunksFrom, buildChunksLoop, if_neg h]

/-- The deduplication invariant of the chunking loop: starting from any
buffer whose first `dropCnt` segments are the ones a reader should skip, the
deduplicated ids of all chunks still to be emitted are exactly the ids of the
non-skipped buffered segments followed by the ids of the remaining input. -/
theorem dedupFrom_buildChunksFrom (maxChars overlap : Nat) :
    ∀ (segments : List Seg) (count : Nat) (buffer : List Seg) (chars dropCnt : Nat),
      dropCnt ≤ buffer.length →
      dedupFrom overlap dropCnt
          ((buildChunksFrom maxChars overlap count buffer chars segments).map Chunk.segment_ids)
        = (buffer.map Seg.segment_id).drop dropCnt ++ segments.map Seg.segment_id := by
  intro segments
  induction segments with
  | nil =>
      intro count buffer chars dropCnt hle
      rw [buildChunksFrom_nil]
      by_cases hb : buffer.isEmpty
      · simp [hb, List.isEmpty_iff.mp hb, dedupFrom]
      · simp [hb, dedupFrom, mkChunk]
  | cons seg rest ih =>
      intro count buffer chars dropCnt hle
      rw [buildChunksFrom_cons]
      by_cases h : maxChars ≤ chars + seg.text.length
      · rw [if_pos h]
        simp only [List.map_cons, dedupFrom]
        have hids : (mkChunk count (buffer ++ [seg])).segment_ids
            = (buffer ++ [seg]).map Seg.segment_id := rfl
        have hretlen : (retainAfterFlush overlap (buffer ++ [seg])).length
            = min overlap ((buffer ++ [seg]).map Seg.segment_id).length := by
          simp only [retainAfterFlush]
          by_cases hov : 0 < overlap
          · rw [if_pos hov]
            simp only [List.length_drop, List.length_map]
            omega
          · rw [if_neg hov]
            simp only [List.length_nil, List.length_map]
            omega
        rw [ih (count + 1) (retainAfterFlush overlap (buffer ++ [seg]))
          (bufferCharCount (retainAfterFlush overlap (buffer ++ [seg])))
          (min overlap ((mkChunk count (buffer ++ [seg])).segment_ids).length)
          (by rw [hids, ← hretlen])]
        have hdropall :
            ((retainAfterFlush overlap (buffer ++ [seg])).map Seg.segment_id).drop
              (min overlap ((mkChunk count (buffer ++ [seg])).segment_ids).length) = [] := by
          rw [hids, ← hretlen, ← List.length_map (retainAfterFlush overlap (buffer ++ [seg])) Seg.segment_id]
          exact List.drop_length _
        rw [hdropall, hids]
        simp only [List.nil_append, List.map_append, List.map_cons, List.map_nil]
        rw [List.drop_append_eq_append_drop]
        have : dropCnt - (buffer.map Seg.segment_id).length = 0 := by
          simp only [List.length_map]; omega
        rw [this]
        simp
      · rw [if_neg h]
        rw [ih count (buffer ++ [seg]) (chars + seg.text.length) dropCnt
          (by simp only [List.length_append, List.length_cons, List.length_nil]; omega)]
        simp only [List.map_append, List.map_cons, List.map_nil]
        rw [List.drop_append_eq_append_drop]
        have : dropCnt - (buffer.map Seg.segment_id).length = 0 := by
          simp only [List.length_map]; omega
        rw [this]
        simp

/-- Appending to the input of the chunking loop runs the loop on the first
part and continues from its final state, with the chunk counter advanced by
the number of chunks the first part emitted. -/
theorem buildChunksLoop_append (maxChars overlap : Nat) :
    ∀ (xs ys : List Seg) (count : Nat) (buffer : List Seg) (chars : Nat),
      buildChunksLoop maxChars overlap count buffer chars (xs ++ ys)
        = ((buildChunksLoop maxChars overlap count buffer chars xs).1
             ++ (buildChunksLoop maxChars overlap
                  (count + (buildChunksLoop maxChars overlap count buffer chars xs).1.length)
                  (buildChunksLoop maxChars overlap count buffer chars xs).2.1
                  (buildChunksLoop maxChars overlap count buffer chars xs).2.2 ys).1,
           (buildChunksLoop maxChars overlap
              (count + (buildChunksLoop maxChars overlap count buffer chars xs).1.length)
              (buildChunksLoop maxChars overlap count buffer chars xs).2.1
              (buildChunksLoop maxChars overlap count buffer chars xs).2.2 ys).2) := by
  intro xs
  induction xs with
  | nil =>
      intro ys count buffer chars
      simp [buildChunksLoop]
  | cons seg rest ih =>
      intro ys count buffer chars
      by_cases h : maxChars ≤ chars + seg.text.length
      · simp only [List.cons_append, buildChunksLoop, if_pos h, List.append_eq]
        rw [ih]
        simp only [List.length_cons, List.cons_append]
        have : count + ((buildChunksLoop maxChars overlap (count + 1)
            (retainAfterFlush overlap (buffer ++ [seg]))
            (bufferCharCount (retainAfterFlush overlap (buffer ++ [seg]))) rest).1.length + 1)
            = count + 1 + (buildChunksLoop maxChars overlap (count + 1)
            (retainAfterFlush overlap (buffer ++ [seg]))
            (bufferCharCount (retainAfterFlush overlap (buffer ++ [seg]))) rest).1.length := by
          omega
        rw [this]
      · simp only [List.cons_append, buildChunksLoop, if_neg h, List.append_eq]
        rw [ih]

/-- C1: for every input sequence of segments, the chunks returned by
`build_chunks`, read in output order, cover every input segment exactly once
in the original order once the overlap duplicates (the `segment_ids` retained
from the preceding chunk) are ignored; and `build_chunks` of the empty
sequence returns the empty sequence. -/
theorem buildChunks_covers_each_segment_once (segments : List Seg) (maxChars overlap : Nat) :
    dedupIds overlap ((buildChunks segments maxChars overlap).map Chunk.segment_ids)
        = segments.map Seg.segment_id
      ∧ buildChunks [] maxChars overlap = [] := by
  constructor
  · have := dedupFrom_buildChunksFrom maxChars overlap segments 0 [] 0 0 (Nat.le_refl 0)
    simpa [dedupIds, buildChunks] using this
  · rfl

/-! ### The spec's two-segment scenario (claims C2 and C10) -/

/-- Segment 0 of the spec scenario: `{segment_id: 0, start: 0.0, end: 5.0, text: "alpha beta"}`. -/
def exSeg0 : Seg := ⟨0, 0, 5, "alpha beta", []⟩

/-- Segment 1 of the spec scenario: `{segment_id: 1, start: 5.0, end: 9.0, text: "gamma"}`. -/
def exSeg1 : Seg := ⟨1, 5, 9, "gamma", []⟩

/-- The scenario's first chunk. -/
def exChunk0 : Chunk := ⟨0, "alpha beta", 0, 5, [0]⟩

/-- The scenario's second chunk. -/
def exChunk1 : Chunk := ⟨1, "alpha beta gamma", 0, 9, [0, 1]⟩

/-- The chunk the final flush actually emits in the scenario: the retained
overlap buffer `[segment 1]` re-emitted on its own. -/
def exChunk2 : Chunk := ⟨2, "gamma", 5, 9, [1]⟩

/-- C2 counterexample: on the spec scenario's segments with `max_chars = 8`
and `overlap = 1`, `build_chunks` does not return the claimed two-chunk
sequence — appending segment 1 brings the buffer to 15 ≥ 8 characters, so
chunk 1 is emitted by an in-loop flush and the final flush emits a third
chunk. -/
theorem buildChunks_scenario_not_two_chunks :
    buildChunks [exSeg0, exSeg1] 8 1 ≠ [exChunk0, exChunk1] := by
  decide

/-- C2 amended: on the spec scenario's segments with `max_chars = 8` and
`overlap = 1`, `build_chunks` returns exactly three chunks: chunk 0 and
chunk 1 as claimed (both emitted by in-loop flushes), followed by chunk 2 =
`{text: "gamma", start: 5.0, end: 9.0, segment_ids: [1]}`, the final flush
re-emitting the retained overlap buffer. -/
theorem buildChunks_scenario_three_chunks :
    buildChunks [exSeg0, exSeg1] 8 1 = [exChunk0, exChunk1, exChunk2] := by
  decide

/-- C10: if the chunking loop ends with a flush triggered by its last
segment (the tracked character count reaches `max_chars` on appending it)
and `overlap ≥ 1`, then `build_chunks` emits one additional trailing chunk
holding exactly the retained overlap buffer; its `segment_ids` are the final
`min overlap _` ids of the immediately preceding chunk (a suffix of it) and
are non-empty. -/
theorem buildChunks_final_flush_reemits_overlap
    (maxChars overlap : Nat) (initSegs : List Seg) (lastSeg : Seg)
    (cs₀ : List Chunk) (buf₀ : List Seg) (ch₀ : Nat)
    (hov : 1 ≤ overlap)
    (hloop : buildChunksLoop maxChars overlap 0 [] 0 initSegs = (cs₀, buf₀, ch₀))
    (hflush : maxChars ≤ ch₀ + lastSeg.text.length) :
    buildChunks (initSegs ++ [lastSeg]) maxChars overlap
        = cs₀ ++ [mkChunk cs₀.length (buf₀ ++ [lastSeg]),
                  mkChunk (cs₀.length + 1) (retainAfterFlush overlap (buf₀ ++ [lastSeg]))]
      ∧ (mkChunk (cs₀.length + 1) (retainAfterFlush overlap (buf₀ ++ [lastSeg]))).segment_ids
          = (mkChunk cs₀.length (buf₀ ++ [lastSeg])).segment_ids.drop
              ((mkChunk cs₀.length (buf₀ ++ [lastSeg])).segment_ids.length - overlap)
      ∧ (mkChunk (cs₀.length + 1) (retainAfterFlush overlap (buf₀ ++ [lastSeg]))).segment_ids.length
          = min overlap (mkChunk cs₀.length (buf₀ ++ [lastSeg])).segment_ids.length
      ∧ (mkChunk (cs₀.length + 1) (retainAfterFlush overlap (buf₀ ++ [lastSeg]))).segment_ids ≠ [] := by
  have hretlen : (retainAfterFlush overlap (buf₀ ++ [lastSeg])).length
      = min overlap (buf₀ ++ [lastSeg]).length := by
    simp only [retainAfterFlush, if_pos (by omega : 0 < overlap), List.length_drop]
    simp only [List.length_append, List.length_cons, List.length_nil]
    omega
  have hretpos : 0 < (retainAfterFlush overlap (buf₀ ++ [lastSeg])).length := by
    rw [hretlen]
    simp only [List.length_append, List.length_cons, List.length_nil]
    omega
  have hretne : (retainAfterFlush overlap (buf₀ ++ [lastSeg])).isEmpty = false := by
    cases hr : retainAfterFlush overlap (buf₀ ++ [lastSeg]) with
    | nil => rw [hr] at hretpos; simp at hretpos
    | cons a l => rfl
  have hstep : buildChunksLoop maxChars overlap cs₀.length buf₀ ch₀ [lastSeg]
      = ([mkChunk cs₀.length (buf₀ ++ [lastSeg])],
         retainAfterFlush overlap (buf₀ ++ [lastSeg]),
         bufferCharCount (retainAfterFlush overlap (buf₀ ++ [lastSeg]))) := by
    simp only [buildChunksLoop, if_pos hflush]
  have hfull : buildChunksLoop maxChars overlap 0 [] 0 (initSegs ++ [lastSeg])
      = (cs₀ ++ [mkChunk cs₀.length (buf₀ ++ [lastSeg])],
         retainAfterFlush overlap (buf₀ ++ [lastSeg]),
         bufferCharCount (retainAfterFlush overlap (buf₀ ++ [lastSeg]))) := by
    rw [buildChunksLoop_append, hloop]
    simp only [Nat.zero_add]
    rw [hstep]
  refine ⟨?_, ?_, ?_, ?_⟩
  · simp only [buildChunks, buildChunksFrom, hfull, hretne, if_neg Bool.false_ne_true,
      Bool.false_eq_true, if_false, List.length_append, List.length_cons, List.length_nil,
      Nat.zero_add, List.append_assoc]
    rfl
  · simp only [mkChunk, retainAfterFlush, if_pos (by omega : 0 < overlap)]
    rw [← List.map_drop]
    simp only [List.length_map]
  · simp only [mkChunk, List.length_map]
    rw [hretlen]
  · intro hcontra
    have : (retainAfterFlush overlap (buf₀ ++ [lastSeg])).map Seg.segment_id = [] := hcontra
    rw [List.map_eq_nil_iff] at this
    rw [this] at hretpos
    simp at hretpos

/-- C10 witness: the spec scenario instantiates the trailing-overlap-chunk
theorem — the loop over `[segment 0]` ends with buffer `[segment 0]` and 10
tracked characters, and appending segment 1 reaches 15 ≥ 8. -/
theorem buildChunks_final_flush_reemits_overlap_witness :
    buildChunks ([exSeg0] ++ [exSeg1]) 8 1
        = [exChunk0] ++ [mkChunk 1 ([exSeg0] ++ [exSeg1]),
                         mkChunk 2 (retainAfterFlush 1 ([exSeg0] ++ [exSeg1]))]
      ∧ (mkChunk 2 (retainAfterFlush 1 ([exSeg0] ++ [exSeg1]))).segment_ids
          = (mkChunk 1 ([exSeg0] ++ [exSeg1])).segment_ids.drop
              ((mkChunk 1 ([exSeg0] ++ [exSeg1])).segment_ids.length - 1)
      ∧ (mkChunk 2 (retainAfterFlush 1 ([exSeg0] ++ [exSeg1]))).segment_ids.length
          = min 1 (mkChunk 1 ([exSeg0] ++ [exSeg1])).segment_ids.length
      ∧ (mkChunk 2 (retainAfterFlush 1 ([exSeg0] ++ [exSeg1]))).segment_ids ≠ [] :=
  buildChunks_final_flush_reemits_overlap 8 1 [exSeg0] exSeg1 [exChunk0] [exSeg0] 10
    (by decide) (by decide) (by decide)

/-! ## Lexical retriever (src/studyscribe/services/retrieval.py, retrieve_chunks)

`_tokenize(text)` is `re.findall(r"[a-zA-Z0-9]+", text.lower())`: lowercase
the text, then collect the maximal runs of ASCII alphanumeric characters. -/

/-- Accumulates the current run (reversed) while scanning the remaining
characters; a non-alphanumeric character closes the run. -/
def tokenizeAux : List Char → List Char → List (List Char)
  | cur, [] => if cur.isEmpty then [] else [cur.reverse]
  | cur, c :: cs =>
      if c.isAlphanum then tokenizeAux (c :: cur) cs
      else if cur.isEmpty then tokenizeAux [] cs
      else cur.reverse :: tokenizeAux [] cs

/-- `_tokenize`: lowercase, then split into maximal `[a-zA-Z0-9]+` runs. -/
def tokenize (s : String) : List String :=
  (tokenizeAux [] (s.data.map Char.toLower)).map fun cs => String.mk cs

/-- A retrieval candidate: a dict with a `"text"` entry (a transcript chunk
or an attachment wrapper).  `payload` stands for the rest of the dict, which
`retrieve_chunks` carries through untouched. -/
structure Cand where
  text : String
  payload : Nat
deriving Repr, DecidableEq, Inhabited

/-- The score computed inside the candidate loop of `retrieve_chunks`:
`sum(tf[t] * scores[t] for t in scores)` — over the distinct query tokens,
the candidate's term frequency times the query's term frequency. -/
def candScore (query : String) (c : Cand) : Nat :=
  ((tokenize query).dedup.map
    (fun t => ((tokenize c.text).count t) * ((tokenize query).count t))).sum

/-- `retrieve_chunks(query, chunks, k)`: empty-token queries return `[]`;
candidates with no text tokens are skipped; candidates with score 0 are
dropped; the rest are sorted by score descending (Python's stable
`sort(key=score, reverse=True)` is a stable merge sort under the relation
`b.score ≤ a.score`) and the first `k` returned. -/
def retrieveChunks (query : String) (chunks : List Cand) (k : Nat) : List Cand :=
  if (tokenize query).isEmpty then []
  else
    let scored := chunks.filterMap (fun c =>
      if (tokenize c.text).isEmpty then none
      else if 0 < candScore query c then some (candScore query c, c) else none)
    let sorted := scored.mergeSort (fun a b => decide (b.1 ≤ a.1))
    (sorted.take k).map Prod.snd

/-- Every scored pair pairs a candidate with its `candScore`, and carries a
positive score. -/
theorem mem_scored_retrieve (query : String) (chunks : List Cand)
    (p : Nat × Cand)
    (hp : p ∈ chunks.filterMap (fun c =>
      if (tokenize c.text).isEmpty then none
      else if 0 < candScore query c then some (candScore query c, c) else none)) :
    p.1 = candScore query p.2 ∧ 0 < p.1 := by
  rw [List.mem_filterMap] at hp
  obtain ⟨c, _, hc⟩ := hp
  by_cases h1 : (tokenize c.text).isEmpty
  · rw [if_pos h1] at hc; exact absurd hc (by simp)
  · rw [if_neg h1] at hc
    by_cases h2 : 0 < candScore query c
    · rw [if_pos h2] at hc
      cases hc
      exact ⟨rfl, h2⟩
    · rw [if_neg h2] at hc; exact absurd hc (by simp)

/-- C3: for every query, candidate pool and `k`: a query with no tokens
returns the empty list (and never an error — the embedding is a total
function); at most `k` candidates are returned; every returned candidate has
a positive score as computed by the source's term-frequency product; and the
returned candidates are sorted by that score, descending. -/
theorem retrieveChunks_spec (query : String) (chunks : List Cand) (k : Nat) :
    (tokenize query = [] → retrieveChunks query chunks k = [])
      ∧ (retrieveChunks query chunks k).length ≤ k
      ∧ (∀ c ∈ retrieveChunks query chunks k, 0 < candScore query c)
      ∧ List.Pairwise (fun a b => candScore query b ≤ candScore query a)
          (retrieveChunks query chunks k) := by
  by_cases hq : (tokenize query).isEmpty
  · refine ⟨fun _ => by simp [retrieveChunks, hq], ?_, ?_, ?_⟩
    · simp [retrieveChunks, hq]
    · simp [retrieveChunks, hq]
    · simp [retrieveChunks, hq]
  · have hne : ¬(tokenize query = []) := by
      intro h; exact hq (by simp [h])
    set scored := chunks.filterMap (fun c =>
      if (tokenize c.text).isEmpty then none
      else if 0 < candScore query c then some (candScore query c, c) else none) with hscored
    set sorted := scored.mergeSort (fun a b => decide (b.1 ≤ a.1)) with hsorted
    have hresult : retrieveChunks query chunks k = (sorted.take k).map Prod.snd := by
      simp only [retrieveChunks, hq, if_false, Bool.false_eq_true]
    have hmem_sorted : ∀ p ∈ sorted, p.1 = candScore query p.2 ∧ 0 < p.1 := by
      intro p hp
      rw [hsorted] at hp
      have : p ∈ scored := (scored.mergeSort_perm (fun a b => decide (b.1 ≤ a.1))).mem_iff.mp hp
      exact mem_scored_retrieve query chunks p this
    refine ⟨fun h => absurd h hne, ?_, ?_, ?_⟩
    · rw [hresult]
      simp only [List.length_map, List.length_take]
      omega
    · intro c hc
      rw [hresult] at hc
      rw [List.mem_map] at hc
      obtain ⟨p, hp, hpc⟩ := hc
      have hps : p ∈ sorted := List.mem_of_mem_take hp
      obtain ⟨h1, h2⟩ := hmem_sorted p hps
      rw [← hpc, ← h1]
      exact h2
    · have hsort : List.Pairwise (fun a b : Nat × Cand => decide (b.1 ≤ a.1) = true) sorted := by
        apply List.sorted_mergeSort
        · intro a b c hab hbc
          simp only [decide_eq_true_eq] at *
          omega
        · intro a b
          simp only [Bool.or_eq_true, decide_eq_true_eq]
          omega
      have hsort' : List.Pairwise (fun a b : Nat × Cand =>
          candScore query b.2 ≤ candScore query a.2) sorted := by
        refine hsort.imp_of_mem ?_
        intro a b ha hb hab
        simp only [decide_eq_true_eq] at hab
        rw [← (hmem_sorted a ha).1, ← (hmem_sorted b hb).1]
        exact hab
      rw [hresult, List.pairwise_map]
      exact hsort'.sublist (List.take_sublist k sorted)

/-- C3 witness: a punctuation-only query returns empty, and retrieval with
`k = 1` returns at most one candidate. -/
theorem retrieveChunks_spec_witness :
    retrieveChunks "?!" [⟨"alpha beta", 0⟩] 3 = []
      ∧ (retrieveChunks "gamma" [⟨"alpha beta", 0⟩, ⟨"alpha beta gamma", 1⟩] 1).length ≤ 1 :=
  ⟨(retrieveChunks_spec "?!" [⟨"alpha beta", 0⟩] 3).1 (by decide),
   (retrieveChunks_spec "gamma" [⟨"alpha beta", 0⟩, ⟨"alpha beta gamma", 1⟩] 1).2.1⟩

/-! ## Job executor (src/studyscribe/services/jobs.py)

A job row and `update_job`'s selective-overwrite semantics: only the fields
passed (non-`None`) are written, plus `updated_at` (not modelled — no claim
touches it). -/

structure Job where
  status : String
  progress : Nat
  message : Option String
  result_path : Option String
deriving Repr, DecidableEq, Inhabited

/-- `update_job(job_id, status=..., progress=..., message=..., result_path=...)`:
each `none` argument leaves the stored field unchanged. -/
def updateJob (job : Job) (status : Option String) (progress : Option Nat)
    (message : Option String) (result_path : Option String) : Job :=
  { status := status.getD job.status
    progress := progress.getD job.progress
    message := message.or job.message
    result_path := result_path.or job.result_path }

/-- A raised Python exception as `enqueue_job`'s handler sees it:
`getattr(exc, "user_message", "Job failed.")` — `user_message` is `some` when
the attribute is present. -/
structure PyExc where
  user_message : Option String
deriving Repr, DecidableEq, Inhabited

/-- What a job task does, abstracted: the `(progress, message)` pairs it
passes to `progress_cb`, in order, and then either a returned result path or
a raised exception. -/
structure TaskRun where
  progressEvents : List (Nat × Option String)
  outcome : Except PyExc String

/-- The `progress_cb` closure inside `_run`:
`update_job(job_id, progress=progress, message=message)`. -/
def applyProgressCb (job : Job) (ev : Nat × Option String) : Job :=
  updateJob job none (some ev.1) ev.2 none

/-- The `_run` worker of `enqueue_job`: mark the job `in_progress`, apply the
task's progress callbacks, then either record success or catch the exception
(`except Exception`) and record the error.  `runJob` is a total function into
`Job`: no exception propagates to the submitter. -/
def runJob (job : Job) (task : TaskRun) : Job :=
  let started := updateJob job (some "in_progress") (some 0) (some "Starting job...") none
  let afterProgress := task.progressEvents.foldl applyProgressCb started
  match task.outcome with
  | Except.ok result_path =>
      updateJob afterProgress (some "success") (some 100) (some "Completed.") (some result_path)
  | Except.error exc =>
      updateJob afterProgress (some "error") none (some (exc.user_message.getD "Job failed.")) none

/-- `enqueue_job`: with `RUN_JOBS_INLINE` the worker runs on the caller's
thread, otherwise it is submitted to the pool; either way the job record
ends up transformed by the same `_run`. -/
def enqueueJob (runsInline : Bool) (job : Job) (task : TaskRun) : Job :=
  if runsInline then runJob job task else runJob job task

/-- C4: for every job task that raises, in both pooled and inline modes the
worker records status `"error"` with message the exception's `user_message`
attribute when present and `"Job failed."` otherwise; the outcome is
identical in the two modes, and (`runJob` being a total function into `Job`)
the exception never propagates to the submitter — the failure is observable
only through the stored job record that `get_job` returns. -/
theorem enqueueJob_error_sets_status_and_message (runsInline : Bool) (job : Job)
    (events : List (Nat × Option String)) (exc : PyExc) :
    (enqueueJob runsInline job ⟨events, Except.error exc⟩).status = "error"
      ∧ (enqueueJob runsInline job ⟨events, Except.error exc⟩).message
          = some (exc.user_message.getD "Job failed.")
      ∧ enqueueJob true job ⟨events, Except.error exc⟩
          = enqueueJob false job ⟨events, Except.error exc⟩ := by
  refine ⟨?_, ?_, ?_⟩ <;> cases runsInline <;> simp [enqueueJob, runJob, updateJob]

/-! ## Transcription pipeline (src/studyscribe/services/transcribe.py)

`transcribe_audio` loops over the audio windows (`chunk_paths`).  Two
aspects are embedded separately: the sequence of `progress_cb` calls
interleaved with window completions (claim C5 — the calls depend only on the
window count), and the assembly of the emitted segments (claim C6). -/

/-- One observable event of a `transcribe_audio` run: a `progress_cb` call,
or the completion of the `i`-th window (1-based). -/
inductive TraceEvent where
  | report (progress : Nat) (message : String)
  | windowDone (i : Nat)
deriving Repr, DecidableEq

/-- Round a rational to the nearest integer, ties to even (the IEEE-754
default rounding). -/
def roundHalfEven (x : ℚ) : ℤ :=
  if x - ⌊x⌋ < 1/2 then ⌊x⌋
  else if 1/2 < x - ⌊x⌋ then ⌊x⌋ + 1
  else if ⌊x⌋ % 2 = 0 then ⌊x⌋ else ⌊x⌋ + 1

/-- The exact value of the IEEE-754 binary64 double nearest to a positive
rational: scale by the floor base-2 logarithm to a 53-bit significand, round
half to even, and scale back.  The exponent is unbounded, so the model is
exact on the normal range (values in `[2^-1022, 2^1024)` — every realistic
window count) and does not model subnormals or overflow.  Non-positive
inputs (only 0 arises here) map to 0. -/
def roundFloat64 (q : ℚ) : ℚ :=
  if q ≤ 0 then 0
  else ((roundHalfEven (q / 2 ^ (Int.log 2 q - 52)) : ℤ) : ℚ) * 2 ^ (Int.log 2 q - 52)

/-- Python `int()` on a float value: truncate toward zero. -/
def pyTrunc (x : ℚ) : ℤ :=
  if 0 ≤ x then ⌊x⌋ else -⌊-x⌋

/-- `int((chunk_index / total_chunks) * 100)` with CPython float semantics:
the true division and the multiplication by 100 are correctly rounded
IEEE-754 binary64 operations (round half to even) and `int` truncates — so
the result can fall one below the exact `⌊i * 100 / total⌋` (at
`i = 29, total = 100` CPython computes `int(0.29 * 100) = 28`).
(`total = 0` never arises: the pipeline raises on empty audio first.) -/
def progressValue (i total : Nat) : Nat :=
  (pyTrunc (roundFloat64 (roundFloat64 ((i : ℚ) / (total : ℚ)) * 100))).toNat

theorem roundHalfEven_bounds (x : ℚ) : ⌊x⌋ ≤ roundHalfEven x ∧ roundHalfEven x ≤ ⌊x⌋ + 1 := by
  rw [roundHalfEven]
  split_ifs <;> omega

theorem roundHalfEven_mono {x y : ℚ} (h : x ≤ y) : roundHalfEven x ≤ roundHalfEven y := by
  have hf : ⌊x⌋ ≤ ⌊y⌋ := Int.floor_le_floor h
  rcases lt_or_eq_of_le hf with hlt | heq
  · calc roundHalfEven x ≤ ⌊x⌋ + 1 := (roundHalfEven_bounds x).2
      _ ≤ ⌊y⌋ := by omega
      _ ≤ roundHalfEven y := (roundHalfEven_bounds y).1
  · have hfr : x - (⌊x⌋ : ℚ) ≤ y - (⌊x⌋ : ℚ) := by linarith
    rw [roundHalfEven, roundHalfEven, ← heq]
    split_ifs <;> first | omega | linarith

theorem roundFloat64_nonneg (q : ℚ) : 0 ≤ roundFloat64 q := by
  rw [roundFloat64]
  split_ifs with h
  · exact le_refl 0
  · have hq : 0 < q := not_le.mp h
    have hh : (0:ℚ) < 2 ^ (Int.log 2 q - 52) := zpow_pos (by norm_num) _
    have hfl : (0:ℤ) ≤ ⌊q / 2 ^ (Int.log 2 q - 52)⌋ :=
      Int.floor_nonneg.mpr (le_of_lt (div_pos hq hh))
    have := (roundHalfEven_bounds (q / 2 ^ (Int.log 2 q - 52))).1
    have hr : (0:ℤ) ≤ roundHalfEven (q / 2 ^ (Int.log 2 q - 52)) := by omega
    exact mul_nonneg (by exact_mod_cast hr) (le_of_lt hh)

theorem roundFloat64_bounds {q : ℚ} (hq : 0 < q) :
    (2:ℚ) ^ (Int.log 2 q) ≤ roundFloat64 q
      ∧ roundFloat64 q ≤ 2 ^ (Int.log 2 q + 1) := by
  have hh : (0:ℚ) < 2 ^ (Int.log 2 q - 52) := zpow_pos (by norm_num) _
  have hlow : (2:ℚ) ^ (Int.log 2 q) ≤ q := by
    have := Int.zpow_log_le_self (R := ℚ) (b := 2) (by norm_num) hq
    push_cast at this
    exact this
  have hhigh : q < 2 ^ (Int.log 2 q + 1) := by
    have := Int.lt_zpow_succ_log_self (R := ℚ) (b := 2) (by norm_num) q
    push_cast at this
    exact this
  have hsplit : (2:ℚ) ^ (Int.log 2 q) = 2 ^ (52:ℤ) * 2 ^ (Int.log 2 q - 52) := by
    rw [← zpow_add₀ (by norm_num : (2:ℚ) ≠ 0)]
    congr 1
    omega
  have hsplit1 : (2:ℚ) ^ (Int.log 2 q + 1) = 2 ^ (53:ℤ) * 2 ^ (Int.log 2 q - 52) := by
    rw [← zpow_add₀ (by norm_num : (2:ℚ) ≠ 0)]
    congr 1
    omega
  have hfl_low : (2^52 : ℤ) ≤ ⌊q / 2 ^ (Int.log 2 q - 52)⌋ := by
    rw [Int.le_floor, le_div_iff₀ hh]
    push_cast
    calc ((2:ℚ)^(52:ℕ)) * 2 ^ (Int.log 2 q - 52) = 2 ^ (52:ℤ) * 2 ^ (Int.log 2 q - 52) := by
          norm_num
      _ = 2 ^ (Int.log 2 q) := hsplit.symm
      _ ≤ q := hlow
  have hfl_high : ⌊q / 2 ^ (Int.log 2 q - 52)⌋ ≤ 2^53 - 1 := by
    have : ⌊q / 2 ^ (Int.log 2 q - 52)⌋ < 2^53 := by
      rw [Int.floor_lt, div_lt_iff₀ hh]
      push_cast
      calc q < 2 ^ (Int.log 2 q + 1) := hhigh
        _ = 2 ^ (53:ℤ) * 2 ^ (Int.log 2 q - 52) := hsplit1
        _ = ((2:ℚ)^(53:ℕ)) * 2 ^ (Int.log 2 q - 52) := by norm_num
    omega
  obtain ⟨hb1, hb2⟩ := roundHalfEven_bounds (q / 2 ^ (Int.log 2 q - 52))
  rw [roundFloat64, if_neg (not_le.mpr hq)]
  constructor
  · rw [hsplit]
    have : ((2:ℚ)^(52:ℤ)) ≤ ((roundHalfEven (q / 2 ^ (Int.log 2 q - 52)) : ℤ) : ℚ) := by
      have h1 : (2^52 : ℤ) ≤ roundHalfEven (q / 2 ^ (Int.log 2 q - 52)) := by omega
      calc ((2:ℚ)^(52:ℤ)) = (((2^52 : ℤ)) : ℚ) := by push_cast; norm_num
        _ ≤ _ := by exact_mod_cast h1
    exact mul_le_mul_of_nonneg_right this (le_of_lt hh)
  · rw [hsplit1]
    have : ((roundHalfEven (q / 2 ^ (Int.log 2 q - 52)) : ℤ) : ℚ) ≤ (2:ℚ)^(53:ℤ) := by
      have h1 : roundHalfEven (q / 2 ^ (Int.log 2 q - 52)) ≤ 2^53 := by omega
      calc ((roundHalfEven (q / 2 ^ (Int.log 2 q - 52)) : ℤ) : ℚ)
          ≤ (((2^53 : ℤ)) : ℚ) := by exact_mod_cast h1
        _ = (2:ℚ)^(53:ℤ) := by push_cast; norm_num
    exact mul_le_mul_of_nonneg_right this (le_of_lt hh)

theorem roundFloat64_mono {x y : ℚ} (hxy : x ≤ y) : roundFloat64 x ≤ roundFloat64 y := by
  by_cases hx : x ≤ 0
  · rw [roundFloat64, if_pos hx]
    exact roundFloat64_nonneg y
  · have hx' : 0 < x := not_le.mp hx
    have hy' : 0 < y := lt_of_lt_of_le hx' hxy
    have hee : Int.log 2 x ≤ Int.log 2 y := Int.log_mono_right hx' hxy
    rcases lt_or_eq_of_le hee with hlt | heq
    · calc roundFloat64 x ≤ 2 ^ (Int.log 2 x + 1) := (roundFloat64_bounds hx').2
        _ ≤ 2 ^ (Int.log 2 y) := zpow_le_zpow_right₀ (by norm_num) (by omega)
        _ ≤ roundFloat64 y := (roundFloat64_bounds hy').1
    · rw [roundFloat64, if_neg (not_le.mpr hx'), roundFloat64, if_neg (not_le.mpr hy'), ← heq]
      have hh : (0:ℚ) < 2 ^ (Int.log 2 x - 52) := zpow_pos (by norm_num) _
      have hdiv : x / 2 ^ (Int.log 2 x - 52) ≤ y / 2 ^ (Int.log 2 x - 52) := by gcongr
      have := roundHalfEven_mono hdiv
      exact mul_le_mul_of_nonneg_right (by exact_mod_cast this) (le_of_lt hh)

/-- Determine `roundFloat64` at a concrete input that rounds down: supply
the exponent window and the significand bounds. -/
theorem roundFloat64_eq (q : ℚ) (e m : ℤ)
    (hq : 0 < q)
    (hlow : (2:ℚ)^e ≤ q) (hhigh : q < 2^(e+1))
    (hm1 : (m : ℚ) * 2^(e-52) ≤ q) (hm2 : q < ((m : ℚ) + 1/2) * 2^(e-52)) :
    roundFloat64 q = (m : ℚ) * 2^(e-52) := by
  have hlog : Int.log 2 q = e := by
    have h1 : e ≤ Int.log 2 q := by
      rw [← Int.zpow_le_iff_le_log (by norm_num) hq]
      push_cast
      exact hlow
    have h2 : ¬ (e + 1 ≤ Int.log 2 q) := by
      intro hc
      rw [← Int.zpow_le_iff_le_log (by norm_num) hq] at hc
      push_cast at hc
      linarith
    omega
  have hh : (0:ℚ) < 2 ^ (e - 52) := zpow_pos (by norm_num) _
  have hfl : ⌊q / 2^(e-52)⌋ = m := by
    rw [Int.floor_eq_iff]
    constructor
    · rw [le_div_iff₀ hh]
      exact hm1
    · rw [div_lt_iff₀ hh]
      calc q < ((m:ℚ) + 1/2) * 2^(e-52) := hm2
        _ ≤ ((m:ℚ) + 1) * 2^(e-52) := by
            apply mul_le_mul_of_nonneg_right _ (le_of_lt hh)
            linarith
  have hfrac : q / 2^(e-52) - (⌊q / 2^(e-52)⌋ : ℚ) < 1/2 := by
    rw [hfl, sub_lt_iff_lt_add, div_lt_iff₀ hh]
    calc q < ((m:ℚ) + 1/2) * 2^(e-52) := hm2
      _ = (1/2 + (m:ℚ)) * 2^(e-52) := by ring
  rw [roundFloat64, if_neg (not_le.mpr hq), hlog]
  rw [roundHalfEven, if_pos hfrac, hfl]

theorem roundFloat64_one : roundFloat64 1 = 1 := by
  have h := roundFloat64_eq 1 0 (2^52) one_pos (by norm_num) (by norm_num)
    (by push_cast; norm_num) (by push_cast; norm_num)
  rw [h]
  push_cast
  norm_num

theorem roundFloat64_hundred : roundFloat64 100 = 100 := by
  have h := roundFloat64_eq 100 6 7036874417766400 (by norm_num) (by norm_num) (by norm_num)
    (by push_cast; norm_num) (by push_cast; norm_num)
  rw [h]
  push_cast
  norm_num

/-- At `i = total` the division is exactly 1.0, the product exactly 100.0,
and the reported progress exactly 100. -/
theorem progressValue_self (total : Nat) (h : 1 ≤ total) : progressValue total total = 100 := by
  have hne : ((total : ℚ)) ≠ 0 := Nat.cast_ne_zero.mpr (by omega)
  rw [progressValue, div_self hne, roundFloat64_one, one_mul, roundFloat64_hundred,
    pyTrunc, if_pos (by norm_num : (0:ℚ) ≤ 100)]
  norm_num
  rfl

theorem progressValue_le_100 (i total : Nat) (hit : i ≤ total) (ht : 1 ≤ total) :
    progressValue i total ≤ 100 := by
  have htq : (0:ℚ) < (total : ℚ) := by exact_mod_cast ht
  have hx1 : ((i:ℚ)) / (total:ℚ) ≤ 1 := by
    rw [div_le_one htq]
    exact_mod_cast hit
  have h1 : roundFloat64 ((i:ℚ)/(total:ℚ)) ≤ 1 := by
    calc roundFloat64 ((i:ℚ)/(total:ℚ)) ≤ roundFloat64 1 := roundFloat64_mono hx1
      _ = 1 := roundFloat64_one
  have h2 : roundFloat64 ((i:ℚ)/(total:ℚ)) * 100 ≤ 100 := by linarith
  have h3 : roundFloat64 (roundFloat64 ((i:ℚ)/(total:ℚ)) * 100) ≤ 100 := by
    calc roundFloat64 (roundFloat64 ((i:ℚ)/(total:ℚ)) * 100)
        ≤ roundFloat64 100 := roundFloat64_mono h2
      _ = 100 := roundFloat64_hundred
  rw [progressValue, pyTrunc, if_pos (roundFloat64_nonneg _)]
  have h4 : ⌊roundFloat64 (roundFloat64 ((i:ℚ)/(total:ℚ)) * 100)⌋ ≤ 100 := by
    calc ⌊roundFloat64 (roundFloat64 ((i:ℚ)/(total:ℚ)) * 100)⌋ ≤ ⌊(100:ℚ)⌋ :=
          Int.floor_le_floor h3
      _ = 100 := by norm_num
  calc (⌊roundFloat64 (roundFloat64 ((i:ℚ)/(total:ℚ)) * 100)⌋).toNat
      ≤ (100:ℤ).toNat := Int.toNat_le_toNat h4
    _ = 100 := rfl

theorem progressValue_mono (total : Nat) {i j : Nat} (hij : i ≤ j) :
    progressValue i total ≤ progressValue j total := by
  have hx : ((i:ℚ)) / (total:ℚ) ≤ ((j:ℚ)) / (total:ℚ) := by
    rcases Nat.eq_zero_or_pos total with h0 | hpos
    · subst h0
      simp
    · have htq : (0:ℚ) < (total : ℚ) := by exact_mod_cast hpos
      have hijq : ((i:ℚ)) ≤ (j:ℚ) := by exact_mod_cast hij
      gcongr
  have h1 := roundFloat64_mono hx
  have h2 : roundFloat64 ((i:ℚ)/(total:ℚ)) * 100 ≤ roundFloat64 ((j:ℚ)/(total:ℚ)) * 100 := by
    linarith
  have h3 := roundFloat64_mono h2
  have h4 := Int.floor_le_floor h3
  rw [progressValue, progressValue, pyTrunc, if_pos (roundFloat64_nonneg _),
    pyTrunc, if_pos (roundFloat64_nonneg _)]
  exact Int.toNat_le_toNat h4

/-- The f-string `f"Transcribing chunk {chunk_index + 1}/{total_chunks}"`. -/
def windowMessage (i total : Nat) : String :=
  "Transcribing chunk " ++ toString (i + 1) ++ "/" ++ toString total

/-- One iteration of the window loop: report progress for window index `i`
(0-based), then transcribe that window to completion (1-based `i + 1`). -/
def windowBlock (total i : Nat) : List TraceEvent :=
  [TraceEvent.report (progressValue i total) (windowMessage i total),
   TraceEvent.windowDone (i + 1)]

/-- The event trace of a successful `transcribe_audio` run over `total`
windows: the loop blocks in order, then the final
`progress_cb(100, "Transcription complete.")`. -/
def transcribeTrace (total : Nat) : List TraceEvent :=
  (List.range total).flatMap (windowBlock total)
    ++ [TraceEvent.report 100 "Transcription complete."]

/-- The reported progress values of a trace, in order. -/
def reportValues : List TraceEvent → List Nat
  | [] => []
  | TraceEvent.report p _ :: rest => p :: reportValues rest
  | TraceEvent.windowDone _ :: rest => reportValues rest

theorem reportValues_append (xs ys : List TraceEvent) :
    reportValues (xs ++ ys) = reportValues xs ++ reportValues ys := by
  induction xs with
  | nil => rfl
  | cons e rest ih => cases e <;> simp [reportValues, ih]

theorem reportValues_flatMap_windowBlock (total : Nat) (l : List Nat) :
    reportValues (l.flatMap (windowBlock total)) = l.map (fun i => progressValue i total) := by
  induction l with
  | nil => rfl
  | cons i rest ih =>
      rw [List.flatMap_cons, reportValues_append, ih]
      rfl

theorem reportValues_transcribeTrace (total : Nat) :
    reportValues (transcribeTrace total)
      = (List.range total).map (fun i => progressValue i total) ++ [100] := by
  rw [transcribeTrace, reportValues_append, reportValues_flatMap_windowBlock]
  rfl

/-- In the loop trace starting at window index `j` (with `j + n = total`),
every window completion `windowDone (i + 1)` with `j ≤ i < total` is
immediately followed by one more report: the final 100-report when it was the
last window, else the next window's report. -/
theorem trace_after_windowDone (total : Nat) :
    ∀ (n j : Nat), j + n = total → ∀ i, j ≤ i → i < total →
      ∃ pre post,
        (List.range' j n).flatMap (windowBlock total)
            ++ [TraceEvent.report 100 "Transcription complete."]
          = pre ++ TraceEvent.windowDone (i + 1) ::
              (if i + 1 = total then TraceEvent.report 100 "Transcription complete."
               else TraceEvent.report (progressValue (i + 1) total)
                 (windowMessage (i + 1) total)) :: post := by
  intro n
  induction n with
  | zero =>
      intro j hj i hji hi
      omega
  | succ m ih =>
      intro j hj i hji hi
      rw [List.range'_succ, List.flatMap_cons]
      by_cases hij : i = j
      · subst hij
        cases m with
        | zero =>
            have htot : i + 1 = total := by omega
            refine ⟨[TraceEvent.report (progressValue i total) (windowMessage i total)], [], ?_⟩
            rw [if_pos htot]
            simp [windowBlock, List.range']
        | succ m' =>
            have htot : ¬(i + 1 = total) := by omega
            rw [List.range'_succ, List.flatMap_cons]
            refine ⟨[TraceEvent.report (progressValue i total) (windowMessage i total)],
              (windowBlock total (i + 1)).tail
                ++ ((List.range' (i + 1 + 1) m').flatMap (windowBlock total)
                    ++ [TraceEvent.report 100 "Transcription complete."]), ?_⟩
            rw [if_neg htot]
            simp [windowBlock]
      · have hji' : j + 1 ≤ i := by omega
        obtain ⟨pre, post, hpp⟩ := ih (j + 1) (by omega) i hji' hi
        refine ⟨windowBlock total j ++ pre, post, ?_⟩
        rw [List.append_assoc, hpp, ← List.append_assoc]

/-- C5 amended: in every successful run of `transcribe_audio` over `total`
windows, each window completion is immediately followed by a progress report
of exactly `int((completed / total) * 100)` evaluated in IEEE-754 binary64
arithmetic (which can fall one below the exact value — see the
counterexample), the final report carrying 100 with the completion message
and the others announcing the next window (`Transcribing chunk i+1/N`); the
sequence of reported progress values is monotonically non-decreasing, and
the final reported value is exactly 100. -/
theorem transcribe_progress_reports (total : Nat) :
    (∀ i, 1 ≤ i → i ≤ total →
      ∃ pre post, transcribeTrace total
        = pre ++ TraceEvent.windowDone i ::
            TraceEvent.report (progressValue i total)
              (if i = total then "Transcription complete." else windowMessage i total)
            :: post)
      ∧ List.Chain' (· ≤ ·) (reportValues (transcribeTrace total))
      ∧ (reportValues (transcribeTrace total)).getLast? = some 100 := by
  refine ⟨?_, ?_, ?_⟩
  · intro i h1 h2
    obtain ⟨pre, post, hpp⟩ := trace_after_windowDone total total 0 (by omega) (i - 1)
      (by omega) (by omega)
    have hi : i - 1 + 1 = i := by omega
    rw [hi] at hpp
    refine ⟨pre, post, ?_⟩
    rw [transcribeTrace, List.range_eq_range']
    rw [hpp]
    by_cases hit : i = total
    · rw [if_pos hit, if_pos hit]
      have : progressValue i total = 100 := by
        rw [hit]
        exact progressValue_self total (by omega)
      rw [this]
    · rw [if_neg hit, if_neg hit]
  · rw [reportValues_transcribeTrace]
    apply List.Pairwise.chain'
    rw [List.pairwise_append]
    refine ⟨?_, List.pairwise_singleton _ _, ?_⟩
    · rw [List.pairwise_map]
      refine (List.pairwise_lt_range total).imp ?_
      intro a b hab
      exact progressValue_mono total (Nat.le_of_lt hab)
    · intro a ha b hb
      rw [List.mem_map] at ha
      obtain ⟨i, hi, hia⟩ := ha
      rw [List.mem_singleton] at hb
      subst hb
      rw [← hia]
      have hitot : i < total := List.mem_range.mp hi
      exact progressValue_le_100 i total (Nat.le_of_lt hitot) (by omega)
  · rw [reportValues_transcribeTrace]
    exact List.getLast?_concat _

/-- C5 counterexample: with 100 windows, after window 29 completes the next
reported progress is `int((29/100)*100)` computed in binary64 float
arithmetic, which is 28 — not the exact `(29/100) × 100 = 29` the claim
asserts — and the accompanying message announces the next window
(`Transcribing chunk 30/100`), not window 29. -/
theorem transcribe_progress_float_counterexample :
    progressValue 29 100 = 28
      ∧ 29 * 100 / 100 = 29
      ∧ windowMessage 29 100 = "Transcribing chunk 30/100"
      ∧ (∃ pre post, transcribeTrace 100
          = pre ++ TraceEvent.windowDone 29 ::
              TraceEvent.report (progressValue 29 100) (windowMessage 29 100) :: post) := by
  have hval : progressValue 29 100 = 28 := by
    have hcast : ((29:ℕ):ℚ) / ((100:ℕ):ℚ) = 29/100 := by norm_num
    have h1 : roundFloat64 ((29:ℚ)/100) = ((5224175567749775 : ℤ) : ℚ) * 2^((-2:ℤ)-52) :=
      roundFloat64_eq (29/100) (-2) 5224175567749775 (by norm_num) (by norm_num) (by norm_num)
        (by push_cast; norm_num) (by push_cast; norm_num)
    have h2 : roundFloat64 (((5224175567749775 : ℤ) : ℚ) * 2^((-2:ℤ)-52) * 100)
        = ((8162774324609023 : ℤ) : ℚ) * 2^((4:ℤ)-52) :=
      roundFloat64_eq _ 4 8162774324609023 (by push_cast; norm_num) (by push_cast; norm_num)
        (by push_cast; norm_num) (by push_cast; norm_num) (by push_cast; norm_num)
    rw [progressValue, hcast, h1, h2, pyTrunc, if_pos (by push_cast; norm_num)]
    have hfl : ⌊((8162774324609023 : ℤ) : ℚ) * 2^((4:ℤ)-52)⌋ = 28 := by
      rw [Int.floor_eq_iff]
      constructor
      · push_cast
        norm_num
      · push_cast
        norm_num
    rw [hfl]
    rfl
  refine ⟨hval, by norm_num, rfl, ?_⟩
  obtain ⟨pre, post, hpp⟩ := trace_after_windowDone 100 100 0 (by omega) 28 (by omega) (by omega)
  refine ⟨pre, post, ?_⟩
  rw [transcribeTrace, List.range_eq_range', hpp]
  rfl

/-! ### Segment assembly (claim C6) -/

/-- A raw segment as the speech model yields it for one window: per-window
`start`/`end` times and the raw text. -/
structure RawSeg where
  start : Rat
  «end» : Rat
  text : String
deriving Repr, DecidableEq, Inhabited

/-- The dict appended for one raw segment inside the window loop of
`transcribe_audio`: global id `segId`, times offset by
`offset = chunk_index * settings.chunk_seconds`, text stripped, empty tags. -/
def offsetSeg (chunkSeconds windowIndex segId : Nat) (r : RawSeg) : Seg :=
  { segment_id := segId
    start := r.start + ((windowIndex * chunkSeconds : Nat) : Rat)
    «end» := r.«end» + ((windowIndex * chunkSeconds : Nat) : Rat)
    text := pyStrip r.text
    tags := [] }

/-- The inner `for seg in result_segments` loop: append each raw segment of
the window with the running global `segment_id`, which increments once per
segment. -/
def emitWindow (chunkSeconds windowIndex : Nat) : Nat → List RawSeg → List Seg
  | _, [] => []
  | segId, r :: rs =>
      offsetSeg chunkSeconds windowIndex segId r
        :: emitWindow chunkSeconds windowIndex (segId + 1) rs

/-- The outer `for chunk_index, chunk_path in enumerate(chunk_paths)` loop:
the window index advances by one per window and the global `segment_id`
counter carries across windows (never reset). -/
def transcribeGo (chunkSeconds : Nat) : Nat → Nat → List (List RawSeg) → List Seg
  | _, _, [] => []
  | windowIndex, segId, w :: ws =>
      emitWindow chunkSeconds windowIndex segId w
        ++ transcribeGo chunkSeconds (windowIndex + 1) (segId + w.length) ws

/-- The segment list `transcribe_audio` assembles, given the speech model's
per-window raw segments. -/
def transcribeSegments (windows : List (List RawSeg)) (chunkSeconds : Nat) : List Seg :=
  transcribeGo chunkSeconds 0 0 windows

theorem emitWindow_eq_mapIdx (chunkSeconds windowIndex : Nat) :
    ∀ (rs : List RawSeg) (segId : Nat),
      emitWindow chunkSeconds windowIndex segId rs
        = (rs.map (fun r => (windowIndex, r))).mapIdx
            (fun j wr => offsetSeg chunkSeconds wr.1 (segId + j) wr.2) := by
  intro rs
  induction rs with
  | nil => intro segId; rfl
  | cons r rest ih =>
      intro segId
      rw [emitWindow, List.map_cons, List.mapIdx_cons, ih (segId + 1)]
      rw [Nat.add_zero]
      congr 1
      have : (fun (j : Nat) (wr : Nat × RawSeg) => offsetSeg chunkSeconds wr.1 (segId + 1 + j) wr.2)
          = fun (j : Nat) (wr : Nat × RawSeg) => offsetSeg chunkSeconds wr.1 (segId + (j + 1)) wr.2 := by
        funext j wr
        have : segId + 1 + j = segId + (j + 1) := by omega
        rw [this]
      rw [this]

theorem transcribeGo_eq_mapIdx (chunkSeconds : Nat) :
    ∀ (windows : List (List RawSeg)) (windowIndex segId : Nat),
      transcribeGo chunkSeconds windowIndex segId windows
        = ((List.enumFrom windowIndex windows).flatMap
              (fun p => p.2.map (fun r => (p.1, r)))).mapIdx
            (fun j wr => offsetSeg chunkSeconds wr.1 (segId + j) wr.2) := by
  intro windows
  induction windows with
  | nil => intro windowIndex segId; rfl
  | cons w ws ih =>
      intro windowIndex segId
      rw [transcribeGo, List.enumFrom_cons, List.flatMap_cons, List.mapIdx_append,
        ih (windowIndex + 1) (segId + w.length), emitWindow_eq_mapIdx]
      congr 1
      have : (fun (j : Nat) (wr : Nat × RawSeg) =>
            offsetSeg chunkSeconds wr.1 (segId + w.length + j) wr.2)
          = fun (j : Nat) (wr : Nat × RawSeg) =>
            offsetSeg chunkSeconds wr.1 (segId + (j + (w.map (fun r => (windowIndex, r))).length)) wr.2 := by
        funext j wr
        have : segId + w.length + j = segId + (j + (w.map (fun r => (windowIndex, r))).length) := by
          rw [List.length_map]; omega
        rw [this]
      rw [this]

theorem emitWindow_map_segment_id (chunkSeconds windowIndex : Nat) :
    ∀ (rs : List RawSeg) (segId : Nat),
      (emitWindow chunkSeconds windowIndex segId rs).map Seg.segment_id
        = List.range' segId rs.length := by
  intro rs
  induction rs with
  | nil => intro segId; rfl
  | cons r rest ih =>
      intro segId
      rw [emitWindow, List.map_cons, List.length_cons, List.range'_succ, ih (segId + 1)]
      rfl

theorem transcribeGo_map_segment_id (chunkSeconds : Nat) :
    ∀ (windows : List (List RawSeg)) (windowIndex segId : Nat),
      (transcribeGo chunkSeconds windowIndex segId windows).map Seg.segment_id
        = List.range' segId (transcribeGo chunkSeconds windowIndex segId windows).length := by
  intro windows
  induction windows with
  | nil => intro windowIndex segId; rfl
  | cons w ws ih =>
      intro windowIndex segId
      rw [transcribeGo, List.map_append, List.length_append,
        emitWindow_map_segment_id, ih (windowIndex + 1) (segId + w.length)]
      have hlen : (emitWindow chunkSeconds windowIndex segId w).length = w.length := by
        rw [← List.length_map (emitWindow chunkSeconds windowIndex segId w) Seg.segment_id,
          emitWindow_map_segment_id]
        exact List.length_range' _ _ _
      rw [hlen]
      have := List.range'_append segId w.length
        (transcribeGo chunkSeconds (windowIndex + 1) (segId + w.length) ws).length 1
      simp only [Nat.one_mul] at this
      rw [this, Nat.add_comm]

/-- C6: the segments `transcribe_audio` emits are, in order, the raw
segments of the windows in window order, each with `start`/`end` offset by
`window_index * chunk_seconds`, with `segment_id` assigned sequentially from
0 across all windows — so the ids equal `0, 1, 2, …` positionally and are
globally unique and strictly increasing. -/
theorem transcribeSegments_offsets_and_ids (windows : List (List RawSeg)) (chunkSeconds : Nat) :
    transcribeSegments windows chunkSeconds
        = ((windows.enum.flatMap (fun p => p.2.map (fun r => (p.1, r)))).mapIdx
            (fun j wr => offsetSeg chunkSeconds wr.1 j wr.2))
      ∧ (transcribeSegments windows chunkSeconds).map Seg.segment_id
          = List.range (transcribeSegments windows chunkSeconds).length
      ∧ List.Pairwise (· < ·) ((transcribeSegments windows chunkSeconds).map Seg.segment_id) := by
  have h1 : transcribeSegments windows chunkSeconds
      = ((windows.enum.flatMap (fun p => p.2.map (fun r => (p.1, r)))).mapIdx
          (fun j wr => offsetSeg chunkSeconds wr.1 j wr.2)) := by
    rw [transcribeSegments, transcribeGo_eq_mapIdx]
    simp only [Nat.zero_add, List.enum]
  have h2 : (transcribeSegments windows chunkSeconds).map Seg.segment_id
      = List.range (transcribeSegments windows chunkSeconds).length := by
    rw [transcribeSegments, transcribeGo_map_segment_id, List.range_eq_range']
  refine ⟨h1, h2, ?_⟩
  rw [h2]
  exact List.pairwise_lt_range _

/-! ## Transcript persistence (src/studyscribe/services/transcribe.py,
_write_transcript_files / load_transcript)

`_write_transcript_files` serialises the segment list with `json.dump`;
`load_transcript` reads it back with `json.load`, returning `[]` for a
missing file, undecodable JSON, or a non-list payload.  The file is modelled
as holding the dumped JSON value itself: Python's `json.dump`/`json.load`
round-trip is exact on these values (ints, `repr`-round-tripping floats,
strings, lists, dicts). -/

/-- A Python value as `json` sees it. -/
inductive PyVal where
  | none
  | bool (b : Bool)
  | num (q : Rat)
  | str (s : String)
  | list (items : List PyVal)
  | dict (entries : List (String × PyVal))
deriving Repr

/-- What `transcript.json` can hold. -/
inductive FileState where
  | missing
  | invalid
  | holds (v : PyVal)

/-- The dict built for one segment by `transcribe_audio`, which
`_write_transcript_files` dumps unchanged. -/
def segToPyVal (s : Seg) : PyVal :=
  PyVal.dict [("segment_id", PyVal.num s.segment_id),
    ("start", PyVal.num s.start),
    ("end", PyVal.num s.«end»),
    ("text", PyVal.str s.text),
    ("tags", PyVal.list (s.tags.map PyVal.str))]

/-- `_write_transcript_files(transcript_dir, segments)`: the transcript file
ends up holding `json.dump(segments)` (the derived `transcript.txt` carries
no claim). -/
def writeTranscriptFiles (segments : List Seg) : FileState :=
  FileState.holds (PyVal.list (segments.map segToPyVal))

/-- `load_transcript(transcript_path)`: `[]` when the file is missing or the
JSON is undecodable; the parsed data when it is a list; `[]` otherwise. -/
def loadTranscript : FileState → List PyVal
  | FileState.missing => []
  | FileState.invalid => []
  | FileState.holds v =>
      match v with
      | PyVal.list xs => xs
      | _ => []

/-- C9: reloading a written transcript yields exactly the dumped segment
dicts, in order, and the dumping map is injective — so the reloaded sequence
determines the same ids, start/end times and texts, segment for segment. -/
theorem transcript_roundtrip (segments : List Seg) :
    loadTranscript (writeTranscriptFiles segments) = segments.map segToPyVal
      ∧ ∀ s1 s2 : Seg, segToPyVal s1 = segToPyVal s2 → s1 = s2 := by
  refine ⟨rfl, ?_⟩
  intro s1 s2 h
  simp only [segToPyVal, PyVal.dict.injEq, List.cons.injEq, Prod.mk.injEq,
    PyVal.num.injEq, PyVal.str.injEq, PyVal.list.injEq, and_true, true_and] at h
  obtain ⟨hid, hstart, hend, htext, htags⟩ := h
  cases s1
  cases s2
  simp only at hid hstart hend htext htags
  simp only [Seg.mk.injEq]
  refine ⟨Nat.cast_inj.mp hid, hstart, hend, htext, ?_⟩
  exact List.map_injective_iff.mpr (fun a b hab => PyVal.str.inj hab) htags

/-! ## Gemini error type (src/studyscribe/services/gemini.py, GeminiError) -/

/-- `GeminiError(message, user_message=None)`: carries an internal message
and a user-facing one; the constructor falls back to the internal message
when no user-facing one is given (`user_message or message`). -/
structure GeminiErr where
  message : String
  user_message : String
deriving Repr, DecidableEq, Inhabited

/-- The `GeminiError.__init__` fallback. -/
def mkGeminiError (message : String) (user_message : Option String) : GeminiErr :=
  ⟨message, user_message.getD message⟩

/-! ## QA orchestrator (src/studyscribe/app.py, _handle_qa_request)

The answer-and-persist phase of `_handle_qa_request`: after the retrieval
passes built the numbered `sources` list and the grounding prompt, the
handler calls `answer_question`; on `GeminiError` it returns the 500
service-error response, otherwise it persists the user message, the
assistant message, the assistant's source rows and `last_answer.json`. -/

/-- A row of `ai_messages` written by `_store_ai_message`. -/
structure AiMessageRow where
  id : Nat
  session_id : String
  role : String
  content : String
deriving Repr, DecidableEq

/-- A row of `ai_message_sources` written by `_store_ai_sources`. -/
structure AiSourceRow where
  message_id : Nat
  source_id : String
  kind : String
  label : String
  snippet : Option String
  session_name : String
  url : Option String
deriving Repr, DecidableEq

/-- A numbered source dict as `_handle_qa_request` builds it (the locator
payload carries no claim and is not modelled). -/
structure QaSource where
  id : Nat
  source_id : Option String
  kind : String
  title : Option String
  label : Option String
  excerpt : Option String
  open_url : Option String
deriving Repr, DecidableEq

/-- The persisted conversation state the QA turn touches: the two tables and
the session's `notes/last_answer.json` (modelled by its answer, markdown and
question fields). -/
structure QaState where
  ai_messages : List AiMessageRow
  ai_message_sources : List AiSourceRow
  last_answer_file : Option (String × String × String)
deriving Repr, DecidableEq

/-- `AnswerOutput` as `answer_question` returns it (its `sources` field is
reassigned to the handler's own list and the handler reads only these two). -/
structure AnswerOutput where
  answer : String
  answer_markdown : String
deriving Repr, DecidableEq

/-- `_store_ai_message`: insert a row and return its autoincremented id. -/
def storeAiMessage (st : QaState) (session_id role content : String) : Nat × QaState :=
  let id := st.ai_messages.length + 1
  (id, { st with ai_messages := st.ai_messages ++ [⟨id, session_id, role, content⟩] })

/-- `_store_ai_sources`: one row per source, attached to `message_id`. -/
def storeAiSources (st : QaState) (message_id : Nat) (sources : List QaSource)
    (session_name : String) : QaState :=
  { st with ai_message_sources := st.ai_message_sources ++ sources.map (fun s =>
      ⟨message_id, s.source_id.getD (toString s.id), s.kind,
       ((s.title.or s.label).getD "Source"), s.excerpt, session_name, s.open_url⟩) }

/-- What the QA turn returns to the route layer. -/
inductive QaOutcome where
  | answered (answer answer_markdown : String) (user_message_id assistant_message_id : Nat)
  | serviceError (error : String) (status : Nat)
deriving Repr, DecidableEq

/-- The `try: answer = answer_question(...)` tail of `_handle_qa_request`:
on `GeminiError` return the user-facing message with status 500, touching
nothing; on success persist the user question, the assistant answer, the
source rows and `last_answer.json`, in that order. -/
def handleQaAnswerPhase (st : QaState) (session_id session_name question : String)
    (sources : List QaSource) (lm : Except GeminiErr AnswerOutput) : QaOutcome × QaState :=
  match lm with
  | Except.error exc => (QaOutcome.serviceError exc.user_message 500, st)
  | Except.ok answer =>
      let r1 := storeAiMessage st session_id "user" question
      let r2 := storeAiMessage r1.2 session_id "assistant" answer.answer_markdown
      let st3 := storeAiSources r2.2 r2.1 sources session_name
      let st4 := { st3 with
        last_answer_file := some (answer.answer, answer.answer_markdown, question) }
      (QaOutcome.answered answer.answer answer.answer_markdown r1.1 r2.1, st4)

/-- C7: whenever `answer_question` raises `GeminiError`, the QA handler
returns the service-error result (the error's user-facing message, HTTP 500)
and persists nothing for the turn — the `ai_messages` table, the
`ai_message_sources` table and `last_answer.json` are exactly as before. -/
theorem qa_gemini_error_persists_nothing (st : QaState)
    (session_id session_name question : String) (sources : List QaSource) (exc : GeminiErr) :
    handleQaAnswerPhase st session_id session_name question sources (Except.error exc)
        = (QaOutcome.serviceError exc.user_message 500, st)
      ∧ (handleQaAnswerPhase st session_id session_name question sources
          (Except.error exc)).2.ai_messages = st.ai_messages
      ∧ (handleQaAnswerPhase st session_id session_name question sources
          (Except.error exc)).2.ai_message_sources = st.ai_message_sources
      ∧ (handleQaAnswerPhase st session_id session_name question sources
          (Except.error exc)).2.last_answer_file = st.last_answer_file :=
  ⟨rfl, rfl, rfl, rfl⟩

/-! ## JSON extraction (src/studyscribe/services/gemini.py, _extract_json)

`_extract_json` strips the model output, peels one fenced code block if
`` ``` `` fences are present, tries `json.loads` on the result, and on
failure retries on the slice from the first `{` to the last `}`.
`json.loads` is embedded as a fuel-indexed recursive-descent parser over the
character list (objects, arrays, strings with the standard escapes, numbers,
`true`/`false`/`null`, strict rejection of raw control characters in
strings; the `NaN`/`Infinity` extensions and surrogate-pair decoding of
`\u` escapes are not modelled). -/

/-- Python `str.find(sub)`: index of the first occurrence, if any. -/
def findSub (needle : List Char) : List Char → Option Nat
  | [] => if needle.isEmpty then some 0 else none
  | c :: cs =>
      if needle.isPrefixOf (c :: cs) then some 0
      else (findSub needle cs).map (· + 1)

/-- Python `str.rfind(sub)`: index of the last occurrence, if any. -/
def rfindSub (needle : List Char) : List Char → Option Nat
  | [] => if needle.isEmpty then some 0 else none
  | c :: cs =>
      match rfindSub needle cs with
      | some i => some (i + 1)
      | none => if needle.isPrefixOf (c :: cs) then some 0 else none

/-- The triple-backquote fence. -/
def fenceChars : List Char := ['`', '`', '`']

/-- JSON insignificant whitespace. -/
def jsonWsB (c : Char) : Bool := c == ' ' || c == '\t' || c == '\n' || c == '\r'

/-- The value of a run of decimal digits. -/
def digitsToNat (ds : List Char) : Nat :=
  ds.foldl (fun acc c => acc * 10 + (c.toNat - 48)) 0

/-- One hexadecimal digit. -/
def hexVal (c : Char) : Option Nat :=
  if c.isDigit then some (c.toNat - 48)
  else if 97 ≤ c.toNat && c.toNat ≤ 102 then some (c.toNat - 87)
  else if 65 ≤ c.toNat && c.toNat ≤ 70 then some (c.toNat - 55)
  else none

/-- The fraction part of a JSON number (after the integer digits): `.` and at
least one digit, or nothing. -/
def jsonParseFrac : List Char → Option (Rat × List Char)
  | '.' :: r =>
      let fs := r.takeWhile Char.isDigit
      if fs.isEmpty then none
      else some (((digitsToNat fs : Nat) : Rat) / ((10 : Rat) ^ fs.length),
        r.dropWhile Char.isDigit)
  | cs => some (0, cs)

/-- The exponent part of a JSON number, returned as a multiplier. -/
def jsonParseExp : List Char → Option (Rat × List Char)
  | c :: r =>
      if c == 'e' || c == 'E' then
        let signed : Bool × List Char :=
          match r with
          | '+' :: r2 => (false, r2)
          | '-' :: r2 => (true, r2)
          | _ => (false, r)
        let es := signed.2.takeWhile Char.isDigit
        if es.isEmpty then none
        else
          let e := digitsToNat es
          some (if signed.1 then (1 : Rat) / ((10 : Rat) ^ e) else ((10 : Rat) ^ e),
            signed.2.dropWhile Char.isDigit)
      else some (1, c :: r)
  | [] => some (1, [])

/-- Whether a number continues with a fraction or exponent (then Python's
`json` yields a float, else an int). -/
def startsFracOrExp : List Char → Bool
  | [] => false
  | c :: _ => c == '.' || c == 'e' || c == 'E'

/-- A JSON number: optional minus, digits without a leading zero, optional
fraction and exponent.  A pure integer literal is cast directly (Python's
`json` returns an `int` for it); a fraction or exponent goes through rational
arithmetic (a `float` in Python). -/
def jsonParseNumber (cs : List Char) : Option (Rat × List Char) :=
  let signed : Bool × List Char :=
    match cs with
    | '-' :: r => (true, r)
    | _ => (false, cs)
  let ds := signed.2.takeWhile Char.isDigit
  let rest := signed.2.dropWhile Char.isDigit
  if ds.isEmpty then none
  else if 1 < ds.length && ds.headI == '0' then none
  else if startsFracOrExp rest then
    match jsonParseFrac rest with
    | none => none
    | some (f, rest2) =>
        match jsonParseExp rest2 with
        | none => none
        | some (m, rest3) =>
            let mag := (((digitsToNat ds : Nat) : Rat) + f) * m
            some (if signed.1 then -mag else mag, rest3)
  else
    some (if signed.1 then -((digitsToNat ds : Nat) : Rat)
      else ((digitsToNat ds : Nat) : Rat), rest)

/-- The body of a JSON string, after the opening quote: literal characters
(raw control characters rejected) and escapes, up to the closing quote. -/
def jsonParseStringBody : Nat → List Char → Option (List Char × List Char)
  | 0, _ => none
  | _ + 1, [] => none
  | fuel + 1, c :: cs =>
      if c == '"' then some ([], cs)
      else if c == '\\' then
        match cs with
        | [] => none
        | e :: cs2 =>
            let esc : Option (Char × List Char) :=
              if e == '"' then some ('"', cs2)
              else if e == '\\' then some ('\\', cs2)
              else if e == '/' then some ('/', cs2)
              else if e == 'b' then some (Char.ofNat 8, cs2)
              else if e == 'f' then some (Char.ofNat 12, cs2)
              else if e == 'n' then some ('\n', cs2)
              else if e == 'r' then some ('\r', cs2)
              else if e == 't' then some ('\t', cs2)
              else if e == 'u' then
                match cs2 with
                | h1 :: h2 :: h3 :: h4 :: cs3 =>
                    match hexVal h1, hexVal h2, hexVal h3, hexVal h4 with
                    | some a, some b, some c2, some d =>
                        some (Char.ofNat (((a * 16 + b) * 16 + c2) * 16 + d), cs3)
                    | _, _, _, _ => none
                | _ => none
              else none
            match esc with
            | none => none
            | some (ch, rest) =>
                match jsonParseStringBody fuel rest with
                | none => none
                | some (body, rest2) => some (ch :: body, rest2)
      else if c.toNat < 32 then none
      else
        match jsonParseStringBody fuel cs with
        | none => none
        | some (body, rest2) => some (c :: body, rest2)

mutual

/-- A JSON value, preceded by optional whitespace. -/
def jsonParseValue : Nat → List Char → Option (PyVal × List Char)
  | 0, _ => none
  | fuel + 1, cs =>
      match cs.dropWhile jsonWsB with
      | [] => none
      | c :: rest =>
          if c == '{' then
            match rest.dropWhile jsonWsB with
            | '}' :: rest2 => some (PyVal.dict [], rest2)
            | rest2 =>
                match jsonParseMembers fuel rest2 with
                | some (entries, rest3) => some (PyVal.dict entries, rest3)
                | none => none
          else if c == '[' then
            match rest.dropWhile jsonWsB with
            | ']' :: rest2 => some (PyVal.list [], rest2)
            | rest2 =>
                match jsonParseItems fuel rest2 with
                | some (items, rest3) => some (PyVal.list items, rest3)
                | none => none
          else if c == '"' then
            match jsonParseStringBody (rest.length + 1) rest with
            | some (body, rest2) => some (PyVal.str (String.mk body), rest2)
            | none => none
          else if c == 't' then
            if ['r', 'u', 'e'].isPrefixOf rest then some (PyVal.bool true, rest.drop 3)
            else none
          else if c == 'f' then
            if ['a', 'l', 's', 'e'].isPrefixOf rest then some (PyVal.bool false, rest.drop 4)
            else none
          else if c == 'n' then
            if ['u', 'l', 'l'].isPrefixOf rest then some (PyVal.none, rest.drop 3)
            else none
          else
            match jsonParseNumber (c :: rest) with
            | some (q, rest2) => some (PyVal.num q, rest2)
            | none => none
termination_by structural fuel _ => fuel

/-- The members of a JSON object, starting at the first key. -/
def jsonParseMembers : Nat → List Char → Option (List (String × PyVal) × List Char)
  | 0, _ => none
  | fuel + 1, cs =>
      match cs.dropWhile jsonWsB with
      | '"' :: rest =>
          match jsonParseStringBody (rest.length + 1) rest with
          | none => none
          | some (key, rest2) =>
              match rest2.dropWhile jsonWsB with
              | ':' :: rest3 =>
                  match jsonParseValue fuel rest3 with
                  | none => none
                  | some (v, rest4) =>
                      match rest4.dropWhile jsonWsB with
                      | ',' :: rest5 =>
                          match jsonParseMembers fuel rest5 with
                          | some (entries, rest6) =>
                              some ((String.mk key, v) :: entries, rest6)
                          | none => none
                      | '}' :: rest5 => some ([(String.mk key, v)], rest5)
                      | _ => none
              | _ => none
      | _ => none
termination_by structural fuel _ => fuel

/-- The items of a JSON array, starting at the first item. -/
def jsonParseItems : Nat → List Char → Option (List PyVal × List Char)
  | 0, _ => none
  | fuel + 1, cs =>
      match jsonParseValue fuel cs with
      | none => none
      | some (v, rest) =>
          match rest.dropWhile jsonWsB with
          | ',' :: rest2 =>
              match jsonParseItems fuel rest2 with
              | some (items, rest3) => some (v :: items, rest3)
              | none => none
          | ']' :: rest2 => some ([v], rest2)
          | _ => none
termination_by structural fuel _ => fuel

end

/-- `json.loads` on a character list: parse one value, then require at most
whitespace to remain.  The fuel is ample: nesting and element counts are
each bounded by the length. -/
def jsonLoadsChars (cs : List Char) : Option PyVal :=
  match jsonParseValue (2 * cs.length + 4) cs with
  | some (v, rest) => if (rest.dropWhile jsonWsB).isEmpty then some v else none
  | none => none

/-- `json.loads` on a string. -/
def jsonLoads (s : String) : Option PyVal := jsonLoadsChars s.data

/-- The fence-peeling preamble of `_extract_json`: when a ``` pair encloses
something (`rfind` past `find`), keep only what stands between the fences,
stripped, minus an optional leading `json` language tag (case-insensitive,
followed by another strip). -/
def extractFenced (raw0 : List Char) : List Char :=
  match findSub fenceChars raw0, rfindSub fenceChars raw0 with
  | some fs, some fe =>
      if fs < fe then
        let inner := listStrip ((raw0.drop (fs + 3)).take (fe - (fs + 3)))
        if ['j', 's', 'o', 'n'].isPrefixOf (inner.map Char.toLower) then
          listStrip (inner.drop 4)
        else inner
      else raw0
  | _, _ => raw0

/-- The error `_extract_json` raises. -/
def invalidJsonError : GeminiErr :=
  mkGeminiError "Model returned invalid JSON." (some "AI response was invalid.")

/-- The `except json.JSONDecodeError` fallback of `_extract_json`: retry on
the slice from the first `{` to the last `}` when that slice is
non-degenerate, else raise. -/
def extractFallback (raw : List Char) : Except GeminiErr PyVal :=
  match findSub ['{'] raw, rfindSub ['}'] raw with
  | some s, some e =>
      if s < e then
        match jsonLoadsChars ((raw.drop s).take (e + 1 - s)) with
        | some v => Except.ok v
        | none => Except.error invalidJsonError
      else Except.error invalidJsonError
  | _, _ => Except.error invalidJsonError

/-- `_extract_json(text)`: strip, peel one fenced block, `json.loads`, and
fall back to the first-`{`-to-last-`}` slice on failure. -/
def extractJson (text : String) : Except GeminiErr PyVal :=
  let raw := extractFenced (listStrip text.data)
  match jsonLoadsChars raw with
  | some v => Except.ok v
  | none => extractFallback raw

/-! ### Lemmas about the string searches of `_extract_json` -/

theorem dropWhile_append_cons {α : Type} (p : α → Bool) (y : α) (hy : p y = false) :
    ∀ (xs ys' : List α), (xs ++ y :: ys').dropWhile p = xs.dropWhile p ++ y :: ys' := by
  intro xs ys'
  induction xs with
  | nil => simp [List.dropWhile_cons, hy]
  | cons x xs ih =>
      by_cases hx : p x
      · simp only [List.cons_append, List.dropWhile_cons, hx, if_true, ih]
      · simp [List.dropWhile_cons, hx]

theorem findSub_cons_none (ch : Char) (nt : List Char) :
    ∀ (hay : List Char), ch ∉ hay → findSub (ch :: nt) hay = none := by
  intro hay
  induction hay with
  | nil => intro _; rfl
  | cons c cs ih =>
      intro h
      have hc : (ch == c) = false := by
        simp only [beq_eq_false_iff_ne, ne_eq]
        intro he
        exact h (he ▸ List.mem_cons_self c cs)
      have hpre : (ch :: nt).isPrefixOf (c :: cs) = false := by
        show (ch == c && nt.isPrefixOf cs) = false
        rw [hc, Bool.false_and]
      rw [findSub, hpre]
      simp only [Bool.false_eq_true, if_false]
      rw [ih (fun hm => h (List.mem_cons_of_mem c hm))]
      rfl

theorem findSub_singleton_append (ch : Char) :
    ∀ (xs ys : List Char), ch ∉ xs → ys.head? = some ch →
      findSub [ch] (xs ++ ys) = some xs.length := by
  intro xs
  induction xs with
  | nil =>
      intro ys _ hy
      cases ys with
      | nil => simp at hy
      | cons y ys' =>
          have : y = ch := by simpa using hy
          subst this
          have hpre : ([y] : List Char).isPrefixOf (y :: ys') = true := by
            show (y == y && List.isPrefixOf [] ys') = true
            simp
          rw [List.nil_append, findSub, hpre]
          rfl
  | cons x xs ih =>
      intro ys h hy
      have hx : (ch == x) = false := by
        simp only [beq_eq_false_iff_ne, ne_eq]
        intro he
        exact h (he ▸ List.mem_cons_self x xs)
      have hpre : ([ch] : List Char).isPrefixOf (x :: (xs ++ ys)) = false := by
        show (ch == x && List.isPrefixOf [] (xs ++ ys)) = false
        rw [hx, Bool.false_and]
      rw [List.cons_append, findSub, hpre]
      simp only [Bool.false_eq_true, if_false]
      rw [ih ys (fun hm => h (List.mem_cons_of_mem x hm)) hy]
      rfl

theorem rfindSub_singleton_none (ch : Char) :
    ∀ (l : List Char), ch ∉ l → rfindSub [ch] l = none := by
  intro l
  induction l with
  | nil => intro _; rfl
  | cons c cs ih =>
      intro h
      have hc : (ch == c) = false := by
        simp only [beq_eq_false_iff_ne, ne_eq]
        intro he
        exact h (he ▸ List.mem_cons_self c cs)
      have hpre : ([ch] : List Char).isPrefixOf (c :: cs) = false := by
        show (ch == c && List.isPrefixOf [] cs) = false
        rw [hc, Bool.false_and]
      rw [rfindSub, ih (fun hm => h (List.mem_cons_of_mem c hm)), hpre]
      simp

theorem rfindSub_singleton_append (ch : Char) :
    ∀ (xs ys : List Char),
      rfindSub [ch] (xs ++ ys)
        = match rfindSub [ch] ys with
          | some i => some (xs.length + i)
          | none => rfindSub [ch] xs := by
  intro xs
  induction xs with
  | nil =>
      intro ys
      rw [List.nil_append]
      cases hys : rfindSub [ch] ys with
      | some i => simp
      | none => rfl
  | cons x xs ih =>
      intro ys
      rw [List.cons_append, rfindSub, ih ys]
      cases hys : rfindSub [ch] ys with
      | some i =>
          simp only [List.length_cons]
          have : xs.length + i + 1 = xs.length + 1 + i := by omega
          rw [this]
      | none =>
          have h1 : ([ch] : List Char).isPrefixOf (x :: (xs ++ ys))
              = ([ch] : List Char).isPrefixOf (x :: xs) := by
            show (ch == x && List.isPrefixOf [] (xs ++ ys))
                = (ch == x && List.isPrefixOf [] xs)
            simp
          rw [h1]
          rfl

theorem rfindSub_singleton_getLast (ch : Char) :
    ∀ (l : List Char), l.getLast? = some ch → rfindSub [ch] l = some (l.length - 1) := by
  intro l
  induction l with
  | nil => intro h; simp at h
  | cons c cs ih =>
      intro h
      cases cs with
      | nil =>
          have : c = ch := by simpa using h
          subst this
          have hpre : ([c] : List Char).isPrefixOf [c] = true := by
            show (c == c && List.isPrefixOf [] []) = true
            simp
          rw [rfindSub, rfindSub, hpre]
          simp
      | cons c2 cs2 =>
          rw [List.getLast?_cons_cons] at h
          rw [rfindSub, ih h]
          rfl

/-- Stripping prose around a JSON object (first char `{`, last char `}`)
strips only the prose. -/
theorem listStrip_around_object (pre j post : List Char)
    (hhead : j.head? = some '{') (hlast : j.getLast? = some '}') :
    listStrip (pre ++ j ++ post)
      = pre.dropWhile Char.isWhitespace ++ j
          ++ (post.reverse.dropWhile Char.isWhitespace).reverse := by
  obtain ⟨jt, rfl⟩ : ∃ jt, j = '{' :: jt := by
    cases j with
    | nil => simp at hhead
    | cons a l =>
        refine ⟨l, ?_⟩
        have : a = '{' := by simpa using hhead
        rw [this]
  obtain ⟨rj, hrj⟩ : ∃ rj, ('{' :: jt).reverse = '}' :: rj := by
    cases hjr : ('{' :: jt).reverse with
    | nil => exact absurd hjr (by simp)
    | cons b l =>
        refine ⟨l, ?_⟩
        have hb : some b = some '}' := by
          rw [← hlast, ← List.head?_reverse, hjr]
          rfl
        have : b = '}' := by simpa using hb
        rw [this]
  have hws1 : Char.isWhitespace '{' = false := by decide
  have hws2 : Char.isWhitespace '}' = false := by decide
  rw [listStrip]
  rw [List.append_assoc, List.cons_append,
    dropWhile_append_cons Char.isWhitespace '{' hws1 pre (jt ++ post)]
  rw [← List.cons_append, ← List.append_assoc]
  rw [List.reverse_append, List.reverse_append, hrj, List.cons_append,
    dropWhile_append_cons Char.isWhitespace '}' hws2 post.reverse
      (rj ++ (pre.dropWhile Char.isWhitespace).reverse)]
  rw [List.reverse_append, List.reverse_cons, List.reverse_append, List.reverse_reverse]
  have hj : rj.reverse ++ ['}'] = '{' :: jt := by
    rw [← List.reverse_cons, ← hrj, List.reverse_reverse]
  rw [List.append_assoc (pre.dropWhile Char.isWhitespace) rj.reverse, hj]

/-- A text without backquotes has no fence. -/
theorem extractFenced_of_no_backquote (raw0 : List Char) (h : '`' ∉ raw0) :
    extractFenced raw0 = raw0 := by
  have hf : findSub fenceChars raw0 = none := findSub_cons_none '`' ['`', '`'] raw0 h
  rw [extractFenced, hf]

/-- The fallback on `prose₁ ++ object ++ prose₂`, when the leading prose has
no `{` and the trailing prose no `}`, parses exactly the object. -/
theorem extractFallback_around_object (pre₁ j post₁ : List Char) (v : PyVal)
    (hpreb : '{' ∉ pre₁) (hpostb : '}' ∉ post₁)
    (hhead : j.head? = some '{') (hlast : j.getLast? = some '}')
    (hj : jsonLoadsChars j = some v) :
    extractFallback (pre₁ ++ j ++ post₁) = Except.ok v := by
  obtain ⟨jt, rfl⟩ : ∃ jt, j = '{' :: jt := by
    cases j with
    | nil => simp at hhead
    | cons a l =>
        refine ⟨l, ?_⟩
        have : a = '{' := by simpa using hhead
        rw [this]
  have hjt : jt ≠ [] := by
    intro he
    rw [he] at hlast
    simp at hlast
  have hjlen : 2 ≤ ('{' :: jt).length := by
    cases jt with
    | nil => exact absurd rfl hjt
    | cons _ _ => simp only [List.length_cons]; omega
  have hfind : findSub ['{'] (pre₁ ++ ('{' :: jt) ++ post₁) = some pre₁.length := by
    rw [List.append_assoc]
    exact findSub_singleton_append '{' pre₁ (('{' :: jt) ++ post₁) hpreb (by rfl)
  have hrfj : rfindSub ['}'] ('{' :: jt) = some (('{' :: jt).length - 1) :=
    rfindSub_singleton_getLast '}' ('{' :: jt) hlast
  have hrfind : rfindSub ['}'] (pre₁ ++ ('{' :: jt) ++ post₁)
      = some (pre₁.length + (('{' :: jt).length - 1)) := by
    rw [List.append_assoc, rfindSub_singleton_append '}' pre₁ (('{' :: jt) ++ post₁),
      rfindSub_singleton_append '}' ('{' :: jt) post₁,
      rfindSub_singleton_none '}' post₁ hpostb, hrfj]
  rw [extractFallback]
  simp only [hfind, hrfind]
  have hlt : pre₁.length < pre₁.length + (('{' :: jt).length - 1) := by omega
  rw [if_pos hlt]
  have hdrop : (pre₁ ++ ('{' :: jt) ++ post₁).drop pre₁.length = ('{' :: jt) ++ post₁ := by
    rw [List.append_assoc]
    exact List.drop_left pre₁ (('{' :: jt) ++ post₁)
  have hidx : pre₁.length + (('{' :: jt).length - 1) + 1 - pre₁.length
      = ('{' :: jt).length := by omega
  rw [hdrop, hidx, List.take_left ('{' :: jt) post₁, hj]

/-- C8 counterexample: the model output `see {"a": 1} and also {"b": 2}.`
wraps JSON objects in extraneous prose (and its first balanced object,
`{"a": 1}`, is valid JSON on its own), yet `_extract_json` raises: the
fallback slices from the first `{` to the last `}`, which spans both objects
and the prose between them. -/
theorem extractJson_two_objects_counterexample :
    jsonLoads "\x7b\"a\": 1\x7d" = some (PyVal.dict [("a", PyVal.num 1)])
      ∧ extractJson "see \x7b\"a\": 1\x7d and also \x7b\"b\": 2\x7d."
          = Except.error invalidJsonError :=
  ⟨rfl, rfl⟩

/-- C8 amended: a JSON object wrapped in fenced code blocks is recovered
(concrete fenced instance), and an object surrounded by extraneous prose is
recovered by the first-`{`-to-last-`}` fallback provided the whole stripped
text is not itself valid JSON, no ``` fence appears, the prose before the
object contains no `{`, and the prose after it contains no `}`. -/
theorem extractJson_recovers_wrapped_object (pre j post : List Char) (v : PyVal)
    (hpreb : '{' ∉ pre) (hpostb : '}' ∉ post)
    (hpref : '`' ∉ pre) (hjf : '`' ∉ j) (hpostf : '`' ∉ post)
    (hhead : j.head? = some '{') (hlast : j.getLast? = some '}')
    (hj : jsonLoadsChars j = some v)
    (hwhole : jsonLoadsChars (listStrip (pre ++ j ++ post)) = none) :
    extractJson (String.mk (pre ++ j ++ post)) = Except.ok v
      ∧ extractJson "```json\n\x7b\"a\": 1\x7d\n```"
          = Except.ok (PyVal.dict [("a", PyVal.num 1)]) := by
  refine ⟨?_, rfl⟩
  have hstrip := listStrip_around_object pre j post hhead hlast
  have hnofence : '`' ∉ listStrip (pre ++ j ++ post) := by
    rw [hstrip]
    intro hmem
    rcases List.mem_append.mp hmem with hmem1 | hpost1
    · rcases List.mem_append.mp hmem1 with hpre1 | hjm
      · exact hpref ((List.dropWhile_sublist _).subset hpre1)
      · exact hjf hjm
    · exact hpostf
        (List.mem_reverse.mp ((List.dropWhile_sublist _).subset (List.mem_reverse.mp hpost1)))
  have hdata : (String.mk (pre ++ j ++ post)).data = pre ++ j ++ post := rfl
  rw [extractJson, hdata, extractFenced_of_no_backquote _ hnofence, hwhole]
  rw [hstrip]
  exact extractFallback_around_object _ j _ v
    (fun hm => hpreb ((List.dropWhile_sublist _).subset hm))
    (fun hm => hpostb
      (List.mem_reverse.mp ((List.dropWhile_sublist _).subset (List.mem_reverse.mp hm))))
    hhead hlast hj

/-- C8 witness: `Answer: {"a": 1} thanks` — prose before and after a single
object — is recovered by the fallback, and the fenced instance parses. -/
theorem extractJson_recovers_wrapped_object_witness :
    extractJson (String.mk ("Answer: ".data ++ "\x7b\"a\": 1\x7d".data ++ " thanks".data))
        = Except.ok (PyVal.dict [("a", PyVal.num 1)])
      ∧ extractJson "```json\n\x7b\"a\": 1\x7d\n```"
          = Except.ok (PyVal.dict [("a", PyVal.num 1)]) :=
  extractJson_recovers_wrapped_object "Answer: ".data "\x7b\"a\": 1\x7d".data " thanks".data
    (PyVal.dict [("a", PyVal.num 1)])
    (by decide) (by decide) (by decide) (by decide) (by decide)
    (by decide) (by decide) rfl rfl

end StudyScribe
